import Mathlib

/-!
Shallow embedding of `cpubench.c` (CPUBench), a CPU benchmarking tool whose
computational core is (a) `clc_pi`, a Chudnovsky-series evaluator for decimal
digits of pi built on GMP, and (b) `clc_prime`, a trial-division prime counter
parallelised with an OpenMP `reduction(+:tpnums)` loop.

Modelling conventions:
* Machine integers (`unsigned long`, `unsigned long long`) are modelled as `Nat`;
  no intermediate value in the modelled computations can overflow the C types
  for the argument ranges considered, except where noted explicitly.
* The GMP integer (`mpz_*`) operations are exact in the C code and are modelled
  by exact `Nat`/`Int` arithmetic.
* The GMP float (`mpf_*`) operations round to a working precision; they are
  modelled here as exact rational/real arithmetic.  Claims settled against this
  model are claims about the exact formulas the code implements, not about
  GMP's rounding behaviour.
* The OpenMP `reduction(+:tpnums)` loop is modelled by its sequential
  semantics (a left fold); per-worker partial sums are modelled separately by
  `workerCount` to reason about arbitrary partitionings.
* Global variables read by a function before being written (only `tpnums` in
  `clc_prime`) are modelled as explicit state parameters.
-/

namespace CPUBench

/-- Bit length of a natural number, computed with explicit structural fuel so
that the kernel can evaluate it.  `bitlenAux fuel x` is the bit length of `x`
whenever `x < 2 ^ fuel`. -/
def bitlenAux : Nat → Nat → Nat
  | 0, _ => 0
  | fuel + 1, x => if x = 0 then 0 else bitlenAux fuel (x / 2) + 1

/-- Model of GCC's `__builtin_clz` on a 32-bit `unsigned int`: the number of
leading zero bits, i.e. `32 - bitlength x`, for `1 ≤ x < 2^32` (the C builtin
is undefined at 0; callers below never pass 0). -/
def clz32 (x : Nat) : Nat := 32 - bitlenAux 32 x

/-- `clc_log2` from cpubench.c lines 59-62:
`return ((num <= 1) ? 0 : 32 - (__builtin_clz(num - 1)));`. -/
def clc_log2 (num : Nat) : Nat :=
  if num ≤ 1 then 0 else 32 - clz32 (num - 1)

/-- Inner loop of `clc_prime` (cpubench.c lines 98-107): `pnum` starts at 1 and
is set to 0 (with `break`) as soon as some `y` in `[2, x)` divides `x`.  The
early `break` does not change the resulting value, which is 1 exactly when no
such `y` exists. -/
def pnum_of (x : Nat) : Nat :=
  if (List.range' 2 (x - 2)).any (fun y => x % y == 0) then 0 else 1

/-- `clc_prime` from cpubench.c lines 88-120.  The loop runs `x` from 2 to
`max` inclusive and accumulates `pnum` into the global `tpnums` via the OpenMP
`reduction(+:tpnums)` clause; `tpnums` is a process global initialised to 0 at
program start and never reset by `clc_prime`, so it is passed in explicitly.
The function returns the updated `tpnums`. -/
def clc_prime (tpnums max : Nat) : Nat :=
  (List.range' 2 (max - 1)).foldl (fun t x => t + pnum_of x) tpnums

/-- Per-worker local computation in the OpenMP reduction: a worker that is
assigned the chunk `chunk` of the iteration range accumulates `pnum` over its
own zero-initialised local copy of `tpnums`. -/
def workerCount (chunk : List Nat) : Nat :=
  chunk.foldl (fun t x => t + pnum_of x) 0

/-- Iteration count of `clc_pi` (cpubench.c line 126):
`unsigned long iters = (dgts / 15) + 1;` (C unsigned division truncates). -/
def iters (dgts : Nat) : Nat := dgts / 15 + 1

/-- cpubench.c line 132: `bits = clc_log2(10);`.  The value 4 is stored in a
`double` and is exactly representable. -/
def bits : Nat := clc_log2 10

/-- cpubench.c line 133: `precision = (dgts * bits) + 1;`.  For every `dgts`
the driver can pass (at most `2^32 - 1`), `dgts * 4` is exactly representable
in the intermediate `double`, so the assignment computes `4 * dgts + 1`
exactly. -/
def precision (dgts : Nat) : Nat := dgts * bits + 1

/-- Spec-side working-precision formula, for comparison with `precision`:
the spec requires `ceil(N * log2(10)) + 1` bits, integerised as
`ceil(log2 (10^N)) + 1 = Nat.clog 2 (10^N) + 1`. -/
def precision_spec (dgts : Nat) : Nat := Nat.clog 2 (10 ^ dgts) + 1

/-- Driver validation, cpubench.c lines 246-251: `if (cpvalue < 1)` print
`"Error: Digit cannot be lower than 1"` and `exit(1)`, else continue with
`cpvalue`.  `cpvalue` has C type `unsigned long`, modelled as `Nat`. -/
def main_digit_check (cpvalue : Nat) : Except String Nat :=
  if cpvalue < 1 then Except.error "Error: Digit cannot be lower than 1"
  else Except.ok cpvalue

/-- Mode selection, cpubench.c lines 226-227, as written in the source: two
consecutive assignments to `threading`, the second overwriting the first:
`threading = (strcmp(argv[2], "--singlethreaded") == 0) ? 1 : 0;`
`threading = (strcmp(argv[2], "--multithreaded") == 0) ? 0 : 1;`. -/
def threading_after (argv2 : String) : Nat :=
  let threading := if argv2 = "--singlethreaded" then 1 else 0
  let threading := if argv2 = "--multithreaded" then 0 else 1
  threading

/-- The second assignment of cpubench.c line 227 on its own. -/
def threading_second_only (argv2 : String) : Nat :=
  if argv2 = "--multithreaded" then 0 else 1

/-- cpubench.c lines 152-154: `v2 = constant1; v2 *= i; v2 += constant2`,
i.e. `545140134 * i + 13591409` (exact `mpz` arithmetic). -/
def v2_val (i : Nat) : Nat := 545140134 * i + 13591409

/-- cpubench.c lines 158-162 with `ti = i * 3`:
`v5 = 640320^ti`, negated when `(1 & ti) == 1` (exact `mpz` arithmetic). -/
def v5_val (i : Nat) : Int :=
  if 1 &&& (i * 3) = 1 then -((640320 : Int) ^ (i * 3)) else (640320 : Int) ^ (i * 3)

/-- Numerator of iteration `i`, cpubench.c lines 151 and 163:
`v1 = (6*i)!` then `v1 = v1 * v2`. -/
def numer_val (i : Nat) : Int := (Nat.factorial (6 * i) : Int) * (v2_val i : Int)

/-- Denominator of iteration `i`, cpubench.c lines 155-158 and 165-166:
`v3 = (ti)!; v4 = (i!)^3; v3 = v3 * v4; v3 = v3 * v5` with `ti = i * 3`. -/
def denom_val (i : Nat) : Int :=
  ((Nat.factorial (i * 3) : Int) * (Nat.factorial i : Int) ^ 3) * v5_val i

/-- The series term `V3 = V1 / V2` of cpubench.c line 168, with the `mpf`
division modelled as exact rational division. -/
def V3_val (i : Nat) : ℚ := (numer_val i : ℚ) / (denom_val i : ℚ)

/-- The accumulator `total` after the loop of cpubench.c lines 148-175:
starting from `mpf_set_ui(total, 0)` the loop adds `V3_val i` for
`i = 0, ..., it - 1` (exact-arithmetic model of the `mpf` additions). -/
def total_sum (it : Nat) : ℚ := ∑ i ∈ Finset.range it, V3_val i

/-- cpubench.c lines 138-139: `tmp = sqrt(10005); tmp = tmp * 426880`, with
the `mpf` square root modelled as the exact real square root. -/
noncomputable def tmp_val : ℝ := Real.sqrt 10005 * 426880

/-- Final value of `total` in `clc_pi`, cpubench.c lines 178-179:
`total = 1 / total; total = total * tmp` (exact-arithmetic model). -/
noncomputable def clc_pi_total (dgts : Nat) : ℝ :=
  (1 / ((total_sum (iters dgts) : ℚ) : ℝ)) * tmp_val

/-- The trial-division predicate of the spec: no `y` in `[2, x)` divides `x`
evenly. -/
def no_small_divisor (x : Nat) : Prop := ∀ y ∈ Finset.Ico 2 x, ¬ y ∣ x

instance (x : Nat) : Decidable (no_small_divisor x) :=
  inferInstanceAs (Decidable (∀ y ∈ Finset.Ico 2 x, ¬ y ∣ x))

end CPUBench

namespace CPUBench

/-- Accumulating a left fold of `pnum_of` splits off its initial value. -/
lemma foldl_add_pnum (l : List Nat) (t : Nat) :
    l.foldl (fun a x => a + pnum_of x) t = t + (l.map pnum_of).sum := by
  induction l generalizing t with
  | nil => simp
  | cons x xs ih =>
      simp only [List.foldl_cons, List.map_cons, List.sum_cons, ih]
      omega

/-- The inner loop leaves `pnum = 1` exactly when no `y ∈ [2, x)` divides `x`. -/
lemma pnum_of_eq_one_iff (x : Nat) :
    pnum_of x = 1 ↔ ∀ y ∈ Finset.Ico 2 x, ¬ y ∣ x := by
  unfold pnum_of
  by_cases h : (List.range' 2 (x - 2)).any (fun y => x % y == 0) = true
  · simp only [h, if_true]
    rcases List.any_eq_true.mp h with ⟨y, hy, hmod⟩
    rw [List.mem_range'_1] at hy
    constructor
    · intro h01; exact absurd h01 (by norm_num)
    · intro hall
      have hdvd : y ∣ x := Nat.dvd_of_mod_eq_zero (by simpa using hmod)
      exact absurd hdvd (hall y (Finset.mem_Ico.mpr ⟨hy.1, by omega⟩))
  · simp only [h, Bool.false_eq_true, if_false, eq_self_iff_true, true_iff]
    intro y hy hdvd
    rw [Finset.mem_Ico] at hy
    apply h
    refine List.any_eq_true.mpr ⟨y, ?_, ?_⟩
    · rw [List.mem_range'_1]; omega
    · simpa using Nat.mod_eq_zero_of_dvd hdvd

/-- `pnum_of` only takes the values 0 and 1. -/
lemma pnum_of_le_one (x : Nat) : pnum_of x ≤ 1 := by
  unfold pnum_of
  split <;> omega

/-- Summing `pnum_of` over a list counts the elements where it equals 1. -/
lemma sum_map_pnum_eq_countP (l : List Nat) :
    (l.map pnum_of).sum = l.countP (fun x => pnum_of x == 1) := by
  induction l with
  | nil => simp
  | cons x xs ih =>
      simp only [List.map_cons, List.sum_cons, List.countP_cons, ih]
      rcases Nat.le_one_iff_eq_zero_or_eq_one.mp (pnum_of_le_one x) with h | h <;>
        simp [h] <;> omega

/-- `clc_prime` adds to the incoming global `tpnums` the number of `x` in
`[2, max]` with no divisor in `[2, x)`. -/
lemma clc_prime_eq_card (t mx : Nat) :
    clc_prime t mx = t + ((Finset.Icc 2 mx).filter no_small_divisor).card := by
  unfold clc_prime
  rw [foldl_add_pnum, sum_map_pnum_eq_countP]
  congr 1
  have hcard : ((Finset.Icc 2 mx).filter no_small_divisor).card =
      ((List.range' 2 (mx + 1 - 2)).filter
        (fun x => decide (no_small_divisor x))).length := by
    rw [Nat.Icc_eq_range']
    rfl
  rw [hcard, ← List.countP_eq_length_filter]
  have hrange : mx + 1 - 2 = mx - 1 := by omega
  rw [hrange]
  refine List.countP_congr (fun x _ => ?_)
  by_cases h : no_small_divisor x
  · simp [h, (pnum_of_eq_one_iff x).mpr h]
  · have hne : pnum_of x ≠ 1 := fun h1 => h ((pnum_of_eq_one_iff x).mp h1)
    have h0 : pnum_of x = 0 := by
      rcases Nat.le_one_iff_eq_zero_or_eq_one.mp (pnum_of_le_one x) with h' | h'
      · exact h'
      · exact absurd h' hne
    simp [h, h0]

/-- Passing the trial-division test is the same as being prime, over `[2, max]`
versus `[0, max]`. -/
lemma trial_filter_eq_prime_filter (mx : Nat) :
    (Finset.Icc 2 mx).filter no_small_divisor =
      (Finset.range (mx + 1)).filter (fun p => p.Prime) := by
  ext x
  simp only [Finset.mem_filter, Finset.mem_Icc, Finset.mem_range, no_small_divisor,
    Finset.mem_Ico]
  constructor
  · rintro ⟨⟨h2, hle⟩, hnsd⟩
    refine ⟨by omega, ?_⟩
    rw [Nat.prime_def_lt']
    exact ⟨h2, fun m hm2 hmx hdvd => hnsd m ⟨hm2, hmx⟩ hdvd⟩
  · rintro ⟨hlt, hp⟩
    have h2 := hp.two_le
    refine ⟨⟨h2, by omega⟩, ?_⟩
    intro y hy hdvd
    exact (Nat.prime_def_lt'.mp hp).2 y hy.1 hy.2 hdvd

/-- `bitlenAux fuel 0 = 0` for every fuel. -/
lemma bitlenAux_zero (fuel : Nat) : bitlenAux fuel 0 = 0 := by
  cases fuel <;> rfl

/-- With enough fuel, `bitlenAux` brackets its argument between consecutive
powers of two. -/
lemma bitlenAux_bounds (fuel : Nat) :
    ∀ x, x < 2 ^ fuel →
      x < 2 ^ bitlenAux fuel x ∧
        (x ≠ 0 → 1 ≤ bitlenAux fuel x ∧ 2 ^ (bitlenAux fuel x - 1) ≤ x) := by
  induction fuel with
  | zero =>
      intro x hx
      have hx0 : x = 0 := by simpa using hx
      subst hx0
      exact ⟨by simp [bitlenAux_zero], fun h => absurd rfl h⟩
  | succ n ih =>
      intro x hx
      by_cases hx0 : x = 0
      · subst hx0
        exact ⟨by simp [bitlenAux_zero], fun h => absurd rfl h⟩
      · have hdiv : x / 2 < 2 ^ n := by
          have h2 : x < 2 ^ n * 2 := by
            rw [← pow_succ]; exact hx
          exact Nat.div_lt_iff_lt_mul (by norm_num) |>.mpr h2
        rcases ih (x / 2) hdiv with ⟨hub, hlb⟩
        have hblen : bitlenAux (n + 1) x = bitlenAux n (x / 2) + 1 := by
          show (if x = 0 then 0 else bitlenAux n (x / 2) + 1) = bitlenAux n (x / 2) + 1
          rw [if_neg hx0]
        rw [hblen]
        constructor
        · rw [pow_succ]
          omega
        · intro _
          refine ⟨by omega, ?_⟩
          by_cases hhalf : x / 2 = 0
          · rw [hhalf, bitlenAux_zero]
            simpa using Nat.one_le_iff_ne_zero.mpr hx0
          · rcases hlb hhalf with ⟨h1, h2⟩
            have : 2 ^ (bitlenAux n (x / 2) - 1) * 2 ≤ x := by omega
            calc 2 ^ (bitlenAux n (x / 2) + 1 - 1)
                = 2 ^ (bitlenAux n (x / 2) - 1) * 2 := by
                  rw [← pow_succ]
                  congr 1
                  omega
              _ ≤ x := this

/-- With enough fuel, `bitlenAux` computes `Nat.size`. -/
lemma bitlenAux_eq_size (fuel x : Nat) (h : x < 2 ^ fuel) :
    bitlenAux fuel x = x.size := by
  rcases bitlenAux_bounds fuel x h with ⟨hub, hlb⟩
  by_cases hx : x = 0
  · subst hx
    rw [bitlenAux_zero, Nat.size_zero]
  · rcases hlb hx with ⟨h1, h2⟩
    apply le_antisymm
    · have hlt : bitlenAux fuel x - 1 < x.size := Nat.lt_size.mpr h2
      omega
    · exact Nat.size_le.mpr hub

/-- The ceiling base-2 logarithm is the bit length of `n - 1`. -/
lemma clog2_eq_size (n : Nat) (h : 1 ≤ n) : Nat.clog 2 n = (n - 1).size := by
  apply le_antisymm
  · refine (Nat.le_pow_iff_clog_le (by norm_num)).mp ?_
    have := Nat.lt_size_self (n - 1)
    omega
  · refine Nat.size_le.mpr ?_
    have := @Nat.le_pow_clog 2 (by norm_num) n
    omega

/-- `clc_log2` computes the ceiling base-2 logarithm on `[2, 2^32 - 1]`. -/
lemma clc_log2_eq_clog (n : Nat) (h2 : 2 ≤ n) (h32 : n ≤ 2 ^ 32 - 1) :
    clc_log2 n = Nat.clog 2 n := by
  have hpow : (2 : Nat) ^ 32 = 4294967296 := by norm_num
  have hlt : n - 1 < 2 ^ 32 := by omega
  have hsize := bitlenAux_eq_size 32 (n - 1) hlt
  have hle : (n - 1).size ≤ 32 := Nat.size_le.mpr hlt
  unfold clc_log2 clz32
  rw [if_neg (by omega), hsize, clog2_eq_size n (by omega)]
  omega

/-- The value stored by `bits = clc_log2(10)` is 4 (exactly representable in
the `double` variable `bits`). -/
lemma bits_eq_four : bits = 4 := by decide

/-- The precision actually configured is `4 * dgts + 1` bits. -/
lemma precision_eq (d : Nat) : precision d = 4 * d + 1 := by
  unfold precision
  rw [bits_eq_four]
  omega

/-- The configured precision dominates the spec-side requirement
`ceil(N * log2 10) + 1`. -/
lemma precision_spec_le_precision (d : Nat) : precision_spec d ≤ precision d := by
  rw [precision_eq]
  unfold precision_spec
  have h10 : (10 : Nat) ^ d ≤ 2 ^ (4 * d) := by
    rw [pow_mul]
    exact Nat.pow_le_pow_left (by norm_num) d
  have hclog := (Nat.le_pow_iff_clog_le (by norm_num)).mp h10
  omega

/-- A worker's local count is the sum of `pnum_of` over its chunk. -/
lemma workerCount_eq_sum (chunk : List Nat) :
    workerCount chunk = (chunk.map pnum_of).sum := by
  unfold workerCount
  rw [foldl_add_pnum]
  omega

/-- Summing the workers' local counts is summing `pnum_of` over the
concatenation of their chunks. -/
lemma sum_workers_eq_flatten (chunks : List (List Nat)) :
    (chunks.map workerCount).sum = (chunks.flatten.map pnum_of).sum := by
  induction chunks with
  | nil => simp
  | cons c cs ih =>
      simp [workerCount_eq_sum, ih]

/-- Claim C2: starting from the initial global state `tpnums = 0`,
`count_primes` (`clc_prime`) returns, for every `max`, the number of
candidates `x` in `[2, max]` such that no `y` in `[2, x)` divides `x` evenly;
in particular `count_primes(0) = 0`, `count_primes(1) = 0`,
`count_primes(10) = 4`, `count_primes(20) = 8`, and `count_primes(30) = 10`. -/
theorem c2_count_primes_trial_division :
    (∀ mx : Nat, clc_prime 0 mx = ((Finset.Icc 2 mx).filter no_small_divisor).card) ∧
      clc_prime 0 0 = 0 ∧ clc_prime 0 1 = 0 ∧ clc_prime 0 10 = 4 ∧
      clc_prime 0 20 = 8 ∧ clc_prime 0 30 = 10 := by
  refine ⟨fun mx => ?_, by decide, by decide, by decide, by decide, by decide⟩
  simpa using clc_prime_eq_card 0 mx

/-- Claim C3: for a fixed `max` and a fixed incoming global state, the total
computed by the parallel prime count is the same for every worker count and
every partitioning of the iteration range `[2, max]`: whenever the chunks
assigned to the workers form (in any order) exactly that range, the sum of
the per-worker local counts, reduced into `tpnums`, equals the sequential
`clc_prime` result.  A single worker is the partition with one chunk. -/
theorem c3_parallel_determinism :
    ∀ (tpnums mx : Nat) (chunks : List (List Nat)),
      chunks.flatten.Perm (List.range' 2 (mx - 1)) →
      tpnums + (chunks.map workerCount).sum = clc_prime tpnums mx := by
  intro t mx chunks hperm
  unfold clc_prime
  rw [foldl_add_pnum, sum_workers_eq_flatten]
  congr 1
  exact (hperm.map pnum_of).sum_eq

/-- Witness for C3: splitting `[2, 10]` into two chunks gives the same total
as the sequential count. -/
theorem c3_parallel_determinism_witness :
    ([[2, 3, 4, 5], [6, 7, 8, 9, 10]] : List (List Nat)).flatten.Perm
        (List.range' 2 (10 - 1)) ∧
      0 + (([[2, 3, 4, 5], [6, 7, 8, 9, 10]] : List (List Nat)).map workerCount).sum =
        clc_prime 0 10 := by
  have hperm : ([[2, 3, 4, 5], [6, 7, 8, 9, 10]] : List (List Nat)).flatten.Perm
      (List.range' 2 (10 - 1)) := by decide
  exact ⟨hperm, c3_parallel_determinism 0 10 _ hperm⟩

/-- Claim C4: in every iteration `i` of the Chudnovsky loop the term added to
the accumulator is the ratio of the exact integers
`(6i)! * (545140134*i + 13591409)` and
`(3i)! * (i!)^3 * 640320^(3i) * sign`, where `sign = -1` when `3i` is odd and
`+1` otherwise; and after the loop the final value is
`total = 426880 * sqrt(10005) / Accumulator`.  (The `mpf` division, addition,
square root and final combination are modelled as exact arithmetic; the
integer numerator and denominator are exact `mpz` values in the code.) -/
theorem c4_series_term_formula :
    (∀ i : Nat,
        V3_val i =
          ((Nat.factorial (6 * i) * (545140134 * i + 13591409) : Nat) : ℚ) /
            ((Nat.factorial (3 * i) : ℚ) * (Nat.factorial i : ℚ) ^ 3 *
              640320 ^ (3 * i) * (if (3 * i) % 2 = 1 then -1 else 1))) ∧
      ∀ dgts : Nat,
        clc_pi_total dgts =
          426880 * Real.sqrt 10005 / ((total_sum (iters dgts) : ℚ) : ℝ) := by
  constructor
  · intro i
    unfold V3_val numer_val denom_val v2_val v5_val
    rw [Nat.one_and_eq_mod_two]
    have h3 : i * 3 = 3 * i := Nat.mul_comm i 3
    rw [h3]
    by_cases hodd : (3 * i) % 2 = 1
    · rw [if_pos hodd, if_pos hodd]
      push_cast
      ring
    · rw [if_neg hodd, if_neg hodd]
      push_cast
      ring
  · intro dgts
    unfold clc_pi_total tmp_val
    ring

/-- Claim C5 counterexample: at `N = 2` the configured precision is
`2 * clc_log2(10) + 1 = 9` bits, while `ceil(2 * log2 10) + 1 = 8` bits, so
the precision is not exactly `ceil(N * log2 10) + 1`. -/
theorem c5_precision_counterexample :
    precision 2 = 9 ∧ precision_spec 2 = 8 ∧ precision 2 ≠ precision_spec 2 := by
  have h7 : Nat.clog 2 (10 ^ 2) = 7 := by
    have h1 : Nat.clog 2 (10 ^ 2) ≤ 7 :=
      (Nat.le_pow_iff_clog_le (by norm_num)).mp (by norm_num)
    have h2 : 6 < Nat.clog 2 (10 ^ 2) :=
      (Nat.pow_lt_iff_lt_clog (by norm_num)).mp (by norm_num)
    omega
  have hps : precision_spec 2 = 8 := by
    unfold precision_spec
    rw [h7]
  have hp : precision 2 = 9 := by decide
  exact ⟨hp, hps, by omega⟩

/-- Claim C5 as amended: for every digit request `N` the computation uses
`iters = floor(N/15) + 1` iterations, and configures the default working
precision to `clc_log2(10) * N + 1 = 4*N + 1` bits, which is at least (but
not in general equal to) the `ceil(N * log2 10) + 1` bits the spec asks
for. -/
theorem c5_iters_precision_amended :
    ∀ dgts : Nat,
      iters dgts = dgts / 15 + 1 ∧ precision dgts = 4 * dgts + 1 ∧
        precision_spec dgts ≤ precision dgts :=
  fun dgts => ⟨rfl, precision_eq dgts, precision_spec_le_precision dgts⟩

/-- Claim C6: the driver rejects a digit count of 0 with an InvalidInput
error before any computation runs, and every value it accepts satisfies the
precondition `digits ≥ 1`; the core entry points take unsigned (`Nat`)
bounds, so no negative value is representable at their interfaces. -/
theorem c6_invalid_input :
    main_digit_check 0 = Except.error "Error: Digit cannot be lower than 1" ∧
      ∀ c v : Nat, main_digit_check c = Except.ok v → 1 ≤ c ∧ v = c := by
  refine ⟨rfl, fun c v h => ?_⟩
  unfold main_digit_check at h
  split at h
  · exact absurd h (by simp)
  · next hc =>
      cases h
      exact ⟨by omega, rfl⟩

/-- Witness for C6: the accepted input 5 satisfies the precondition. -/
theorem c6_invalid_input_witness :
    main_digit_check 5 = Except.ok 5 ∧ 1 ≤ 5 :=
  ⟨rfl, (c6_invalid_input.2 5 5 rfl).1⟩

/-- Claim C7 counterexample: `clc_prime` is not idempotent across calls.  The
global `tpnums` is initialised to 0 at program start and never reset, so the
first call `clc_prime(10)` returns 4 while an immediately repeated call
returns 8 — hidden global state leaks from one call to the next. -/
theorem c7_idempotence_counterexample :
    clc_prime 0 10 = 4 ∧ clc_prime (clc_prime 0 10) 10 = 8 ∧
      clc_prime (clc_prime 0 10) 10 ≠ clc_prime 0 10 := by decide

/-- Claim C7 as amended: `clc_pi` reads no global it has not first written,
so its model is a pure function of the digit count and repeated calls agree;
but `clc_prime` accumulates into the persistent global `tpnums`: a call made
with global state `s` returns `s` plus the count a fresh call would return,
so a repeated call with the same `max` returns double the first result
whenever the count is nonzero. -/
theorem c7_idempotence_amended :
    ∀ (tpnums mx : Nat), clc_prime tpnums mx = tpnums + clc_prime 0 mx := by
  intro t mx
  unfold clc_prime
  rw [foldl_add_pnum, foldl_add_pnum]
  omega

/-- Claim C8 counterexample: at `max = 2` the code returns 1 (it tests
candidates up to `max` inclusive, and 2 is prime), while the number of primes
strictly below 2 is 0. -/
theorem c8_strictly_below_counterexample :
    ¬ clc_prime 0 2 = ((Finset.range 2).filter (fun p => p.Prime)).card := by
  decide

/-- Claim C8 as amended: `count_primes(N)` counts the primes up to and
including `N`: for every `N` the returned total equals the number of prime
integers `p` with `p ≤ N` (equivalently `p < N + 1`). -/
theorem c8_count_inclusive_amended :
    ∀ mx : Nat,
      clc_prime 0 mx = ((Finset.range (mx + 1)).filter (fun p => p.Prime)).card := by
  intro mx
  rw [← trial_filter_eq_prime_filter]
  simpa using clc_prime_eq_card 0 mx

/-- Claim C9: the two consecutive assignments to `threading` are equivalent
to the second assignment alone, so the chosen branch depends only on whether
`argv[2]` equals `"--multithreaded"`; for every other value of `argv[2]`
(including arbitrary strings) the single-threaded pi branch (`threading = 1`)
runs. -/
theorem c9_threading_flag_dead :
    (∀ argv2 : String, threading_after argv2 = threading_second_only argv2) ∧
      (∀ argv2 : String, argv2 ≠ "--multithreaded" → threading_after argv2 = 1) ∧
      threading_after "--multithreaded" = 0 := by
  refine ⟨fun a => rfl, fun a ha => ?_, by decide⟩
  show (if a = "--multithreaded" then 0 else 1) = 1
  rw [if_neg ha]

/-- Witness for C9: `--singlethreaded` still selects the pi branch. -/
theorem c9_threading_flag_dead_witness :
    "--singlethreaded" ≠ "--multithreaded" ∧
      threading_after "--singlethreaded" = 1 :=
  ⟨by decide, c9_threading_flag_dead.2.1 "--singlethreaded" (by decide)⟩

/-- Claim C10: `clc_log2(n)` is `ceil(log2 n)` for every `2 ≤ n ≤ 2^32 - 1`
and 0 for `n ≤ 1`; in particular `clc_log2(10) = 4`, so `clc_pi` sets the
default working precision to exactly `4 * digits + 1` bits, which is at least
the `ceil(digits * log2 10) + 1` bits needed. -/
theorem c10_log2_and_precision :
    (∀ n : Nat, 2 ≤ n → n ≤ 2 ^ 32 - 1 → clc_log2 n = Nat.clog 2 n) ∧
      (∀ n : Nat, n ≤ 1 → clc_log2 n = 0) ∧
      clc_log2 10 = 4 ∧
      ∀ dgts : Nat,
        precision dgts = 4 * dgts + 1 ∧ Nat.clog 2 (10 ^ dgts) + 1 ≤ precision dgts := by
  refine ⟨clc_log2_eq_clog, fun n hn => ?_, by decide,
    fun d => ⟨precision_eq d, precision_spec_le_precision d⟩⟩
  unfold clc_log2
  rw [if_pos hn]

/-- Witness for C10: the bounds are satisfiable, e.g. at `n = 10` and
`n = 1`. -/
theorem c10_log2_and_precision_witness :
    (2 ≤ 10 ∧ (10 : Nat) ≤ 2 ^ 32 - 1 ∧ clc_log2 10 = Nat.clog 2 10) ∧
      ((1 : Nat) ≤ 1 ∧ clc_log2 1 = 0) :=
  ⟨⟨by norm_num, by norm_num,
      c10_log2_and_precision.1 10 (by norm_num) (by norm_num)⟩,
    ⟨le_refl 1, c10_log2_and_precision.2.1 1 (le_refl 1)⟩⟩

end CPUBench
